import Mathlib

/-!
Verification of the patch-application and diff-annotation engine of the
mentat repository (files `mentat/diff_context.py` and
`mentat/code_file_manager.py`), shallowly embedded in Lean.

Python strings are modelled as Lean `String`s, and the string operations the
source uses (`startswith`, `split`, `in`, slicing, indexing, `int(...)`,
f-string formatting of naturals) are modelled by explicit functions over the
underlying character lists, so that every step of the source is mirrored by
an executable Lean definition.
-/

/-- Model of Python `s.startswith(p)`: `p`'s characters are a prefix of `s`'s. -/
def listPre : List Char → List Char → Bool
  | [], _ => true
  | _ :: _, [] => false
  | c :: cs, d :: ds => decide (c = d) && listPre cs ds

/-- Python `line.startswith(p)` for a string pattern `p`. -/
def pyStartswith (s p : String) : Bool := listPre p.data s.data

/-- Model of Python `s.split(sep)` for a one-character separator: splits on
every occurrence, keeping empty segments (Python `str.split` with an explicit
separator keeps empties). -/
def splitCharList (c : Char) : List Char → List (List Char)
  | [] => [[]]
  | x :: xs =>
    if x = c then [] :: splitCharList c xs
    else
      match splitCharList c xs with
      | [] => [[x]]
      | t :: ts => (x :: t) :: ts

/-- Python `s.split(c)` returning strings. -/
def pySplitChar (c : Char) (s : String) : List String :=
  (splitCharList c s.data).map (fun l => ⟨l⟩)

/-- Python `c in s` for a single character. -/
def pyContains (s : String) (c : Char) : Bool := decide (c ∈ s.data)

/-- Python `s[n:]`. -/
def pyDrop (s : String) (n : Nat) : String := ⟨s.data.drop n⟩

/-- Python `"x" + s` (prepending one character). -/
def strCons (c : Char) (s : String) : String := ⟨c :: s.data⟩

/-- The numeric value of a digit character. -/
def digitVal (c : Char) : Nat := c.toNat - 48

/-- Accumulating decimal read of a character list (the core of Python `int`). -/
def strToNatCore (l : List Char) (acc : Nat) : Nat :=
  l.foldl (fun n c => n * 10 + digitVal c) acc

/-- Model of Python `int(s)` on the plain digit strings arising in diff hunk
headers: succeeds exactly on non-empty all-digit strings (any other input
raises `ValueError`, modelled as `none`). -/
def pyInt (s : String) : Option Nat :=
  if s.data = [] then none
  else if s.data.all Char.isDigit then some (strToNatCore s.data 0) else none

/-- Fuel-driven decimal rendering of a natural number (most significant digit
first); with fuel `n + 1` it renders `n` exactly. -/
def natCharsAux : Nat → Nat → List Char
  | 0, _ => []
  | fuel + 1, n =>
    if n < 10 then [Char.ofNat (48 + n)]
    else natCharsAux fuel (n / 10) ++ [Char.ofNat (48 + n % 10)]

/-- The decimal digit characters of `n`. -/
def natCharsOf (n : Nat) : List Char := natCharsAux (n + 1) n

/-- Decimal rendering of a natural number as a string (the model of an
f-string interpolation `f"{n}"`). -/
def natStr (n : Nat) : String := ⟨natCharsOf n⟩

theorem digit_char_isDigit {d : Nat} (h : d < 10) :
    (Char.ofNat (48 + d)).isDigit = true := by
  interval_cases d <;> decide

theorem digit_char_val {d : Nat} (h : d < 10) :
    digitVal (Char.ofNat (48 + d)) = d := by
  interval_cases d <;> decide

theorem strToNatCore_append (a b : List Char) (acc : Nat) :
    strToNatCore (a ++ b) acc = strToNatCore b (strToNatCore a acc) := by
  simp [strToNatCore, List.foldl_append]

theorem natCharsAux_succ_ge (fuel n : Nat) (h : ¬ n < 10) :
    natCharsAux (fuel + 1) n = natCharsAux fuel (n / 10) ++ [Char.ofNat (48 + n % 10)] := by
  simp [natCharsAux, h]

theorem natCharsAux_spec :
    ∀ fuel n, n < 10 ^ (fuel + 1) →
      (natCharsAux (fuel + 1) n ≠ [] ∧
        (natCharsAux (fuel + 1) n).all Char.isDigit = true ∧
        ∀ acc, strToNatCore (natCharsAux (fuel + 1) n) acc =
          acc * 10 ^ (natCharsAux (fuel + 1) n).length + n) := by
  intro fuel
  induction fuel with
  | zero =>
    intro n hn
    have h10 : n < 10 := by simpa using hn
    refine ⟨by simp [natCharsAux, h10], by simp [natCharsAux, h10, digit_char_isDigit h10], ?_⟩
    intro acc
    simp [natCharsAux, h10, strToNatCore, digit_char_val h10]
  | succ fuel ih =>
    intro n hn
    by_cases h10 : n < 10
    · refine ⟨by simp [natCharsAux, h10], by simp [natCharsAux, h10, digit_char_isDigit h10], ?_⟩
      intro acc
      simp [natCharsAux, h10, strToNatCore, digit_char_val h10]
    · have hdiv : n / 10 < 10 ^ (fuel + 1) := by
        have : n < 10 ^ (fuel + 1) * 10 := by
          calc n < 10 ^ (fuel + 1 + 1) := hn
          _ = 10 ^ (fuel + 1) * 10 := by ring
        omega
      obtain ⟨hne, hdig, hval⟩ := ih (n / 10) hdiv
      have hmod : n % 10 < 10 := Nat.mod_lt _ (by norm_num)
      rw [natCharsAux_succ_ge (fuel + 1) n h10]
      constructor
      · simp
      constructor
      · simp only [List.all_append]
        simp [hdig, digit_char_isDigit hmod]
      · intro acc
        rw [strToNatCore_append, hval acc]
        simp only [strToNatCore, List.foldl_cons, List.foldl_nil,
          List.length_append, List.length_cons, List.length_nil]
        rw [digit_char_val hmod]
        have hnd : n = 10 * (n / 10) + n % 10 := (Nat.div_add_mod n 10).symm
        rw [pow_succ]
        ring_nf
        omega

theorem natCharsOf_spec (n : Nat) :
    natCharsOf n ≠ [] ∧
      (natCharsOf n).all Char.isDigit = true ∧
      strToNatCore (natCharsOf n) 0 = n := by
  have hlt : n < 10 ^ (n + 1) := by
    calc n < 2 ^ n := Nat.lt_two_pow n
    _ ≤ 10 ^ n := Nat.pow_le_pow_left (by norm_num) n
    _ ≤ 10 ^ (n + 1) := Nat.pow_le_pow_right (by norm_num) (Nat.le_succ n)
  obtain ⟨hne, hdig, hval⟩ := natCharsAux_spec n n hlt
  exact ⟨hne, hdig, by simpa using hval 0⟩

theorem pyInt_natStr (n : Nat) : pyInt (natStr n) = some n := by
  obtain ⟨hne, hdig, hval⟩ := natCharsOf_spec n
  simp [pyInt, natStr, hne, hdig, hval]

theorem isDigit_ne_special {c : Char} (h : c.isDigit = true) :
    c ≠ ' ' ∧ c ≠ ',' := by
  constructor <;> · rintro rfl; simp at h

theorem natCharsOf_no_space (n : Nat) : ' ' ∉ natCharsOf n := by
  intro hmem
  obtain ⟨_, hdig, _⟩ := natCharsOf_spec n
  have := (List.all_eq_true.mp hdig) _ hmem
  exact (isDigit_ne_special this).1 rfl

theorem natCharsOf_no_comma (n : Nat) : ',' ∉ natCharsOf n := by
  intro hmem
  obtain ⟨_, hdig, _⟩ := natCharsOf_spec n
  have := (List.all_eq_true.mp hdig) _ hmem
  exact (isDigit_ne_special this).2 rfl

theorem splitCharList_ne_nil (c : Char) (l : List Char) : splitCharList c l ≠ [] := by
  induction l with
  | nil => simp [splitCharList]
  | cons x xs ih =>
    by_cases hx : x = c
    · simp [splitCharList, hx]
    · simp only [splitCharList, hx, if_false]
      cases h : splitCharList c xs with
      | nil => simp
      | cons t ts => simp

theorem splitCharList_no_sep (c : Char) (xs : List Char) (h : c ∉ xs) :
    splitCharList c xs = [xs] := by
  induction xs with
  | nil => simp [splitCharList]
  | cons x l ih =>
    have hx : x ≠ c := fun he => h (he ▸ List.mem_cons_self x l)
    have hl : c ∉ l := fun hm => h (List.mem_cons_of_mem x hm)
    simp [splitCharList, hx, ih hl]

theorem splitCharList_append (c : Char) (xs ys : List Char) (h : c ∉ xs) :
    splitCharList c (xs ++ c :: ys) = xs :: splitCharList c ys := by
  induction xs with
  | nil => simp [splitCharList]
  | cons x l ih =>
    have hx : x ≠ c := fun he => h (he ▸ List.mem_cons_self x l)
    have hl : c ∉ l := fun hm => h (List.mem_cons_of_mem x hm)
    have hrec := ih hl
    simp only [List.cons_append, splitCharList, hx, if_false]
    simp only [List.append_eq, hrec]

/-!
## Source embedding: `mentat/diff_context.py`

`DiffAnnotation`, `_parse_diff` and `_annotate_file_message`.
-/

/-- `DiffAnnotation` from `diff_context.py`: the new-file line number where a
hunk begins, and its raw `+`/`-` message lines. -/
structure DiffAnnotation where
  start : Nat
  message : List String
deriving DecidableEq, Repr

/-- Python exceptions that `_parse_diff` can raise: the explicit
`UserError("Invalid diff")`, an `IndexError` from `line.split(" ")[2]` on a
short `@@` line, or a `ValueError` from `int(...)` on a non-numeric token. -/
inductive PyErr where
  | userError (msg : String)
  | indexError
  | valueError
deriving DecidableEq, Repr

/-- `line.startswith(("---", "+++", "//"))`. -/
def isSkipLine (l : String) : Bool :=
  pyStartswith l "---" || pyStartswith l "+++" || pyStartswith l "//"

/-- `line.startswith("@@")`. -/
def isHunkLine (l : String) : Bool := pyStartswith l "@@"

/-- `line.startswith(("+", "-"))`. -/
def isContentLine (l : String) : Bool := pyStartswith l "+" || pyStartswith l "-"

/-- The hunk-header number extraction of `_parse_diff`:
`_new_index = line.split(" ")[2]`, then `new_start = _new_index[1:].split(",")[0]`
when the token contains a comma and `_new_index[1:]` otherwise, then
`int(new_start)`. -/
def parseHunkStart (l : String) : Except PyErr Nat :=
  match (pySplitChar ' ' l).get? 2 with
  | none => Except.error PyErr.indexError
  | some newIndex =>
    let newStart :=
      if pyContains newIndex ',' then (pySplitChar ',' (pyDrop newIndex 1)).headD ""
      else pyDrop newIndex 1
    match pyInt newStart with
    | none => Except.error PyErr.valueError
    | some n => Except.ok n

/-- Stable insertion of an annotation into a list ascending by `start`
(placed before the first strictly larger `start`). -/
def insertAnn (a : DiffAnnotation) : List DiffAnnotation → List DiffAnnotation
  | [] => [a]
  | b :: bs => if b.start < a.start then b :: insertAnn a bs else a :: b :: bs

/-- `annotations.sort(key=lambda a: a.start)` — Python's stable sort by `start`. -/
def sortAnns : List DiffAnnotation → List DiffAnnotation
  | [] => []
  | a :: as => insertAnn a (sortAnns as)

/-- The line loop of `_parse_diff`, carrying the current `active_annotation`
and the accumulated `annotations` list; at the end the active annotation is
flushed and the result sorted by `start`. -/
def parseLoop : List String → Option DiffAnnotation → List DiffAnnotation →
    Except PyErr (List DiffAnnotation)
  | [], active, acc => Except.ok (sortAnns (acc ++ active.toList))
  | l :: ls, active, acc =>
    if isSkipLine l then parseLoop ls active acc
    else if isHunkLine l then
      match parseHunkStart l with
      | Except.error e => Except.error e
      | Except.ok s => parseLoop ls (some ⟨s, []⟩) (acc ++ active.toList)
    else if isContentLine l then
      match active with
      | none => Except.error (PyErr.userError "Invalid diff")
      | some a => parseLoop ls (some ⟨a.start, a.message ++ [l]⟩) acc
    else parseLoop ls active acc

/-- `_parse_diff` on the line list produced by `diff.splitlines()`: the first
four header lines are discarded (`lines[4:]`) and the rest scanned. -/
def parse_diff (lines : List String) : Except PyErr (List DiffAnnotation) :=
  parseLoop (lines.drop 4) none []

/-- The f-string `f"{n}:{line}"` used both by the numbered code listing and
by the annotation weaver. -/
def tagLine (n : Nat) (l : String) : String := ⟨natCharsOf n ++ ':' :: l.data⟩

/-- The inner message loop of `_annotate_file_message`: walks one
annotation's lines with the running cursor `active_index` and the `i_minus`
counter (`None` at hunk start, reset to `None` on each `+` line).  A Python
`IndexError` on `line[0]` for an empty line is modelled as `none`.  Returns
the emitted lines and the final cursor. -/
def processMessage (startA : Nat) : List String → Nat → Option Nat →
    Option (List String × Nat)
  | [], active, _ => some ([], active)
  | line :: rest, active, iMinus =>
    match line.data.head? with
    | none => none
    | some sign =>
      if sign = '+' then
        (processMessage startA rest (active + 1) none).map
          (fun p => (tagLine active line :: p.1, p.2))
      else if sign = '-' then
        (processMessage startA rest active (some (iMinus.getD 0 + 1))).map
          (fun p => (tagLine (startA + iMinus.getD 0) line :: p.1, p.2))
      else processMessage startA rest active iMinus

/-- The annotation loop of `_annotate_file_message`: for each annotation copy
the gap `code_message[active_index : annotation.start]`, re-emit the header
line when `annotation.start == 0` (cursor then starts at 1), and process the
message lines.  Returns the emitted lines and the final `active_index`. -/
def annotateGo (codeMessage : List String) : List DiffAnnotation → Nat →
    Option (List String × Nat)
  | [], active => some ([], active)
  | ann :: rest, active =>
    let gap := if active < ann.start
      then (codeMessage.drop active).take (ann.start - active) else []
    if ann.start = 0 then
      codeMessage.head?.bind (fun h =>
        (processMessage ann.start ann.message 1 none).bind (fun p =>
          (annotateGo codeMessage rest p.2).map
            (fun q => (gap ++ h :: p.1 ++ q.1, q.2))))
    else
      (processMessage ann.start ann.message ann.start none).bind (fun p =>
        (annotateGo codeMessage rest p.2).map
          (fun q => (gap ++ p.1 ++ q.1, q.2)))

/-- `_annotate_file_message(code_message, annotations)`: the annotation loop
followed by the final copy of `code_message[active_index:]`. -/
def annotate_file_message (codeMessage : List String)
    (annotations : List DiffAnnotation) : Option (List String) :=
  (annotateGo codeMessage annotations 0).map (fun p =>
    p.1 ++ (if p.2 < codeMessage.length then codeMessage.drop p.2 else []))

/-!
## Source embedding: `mentat/code_file_manager.py`

`_get_new_code_lines` (its post-conflict-resolution core), the per-file write
step of `write_changes_to_files`, `_delete_file` and `_handle_delete`.
-/

/-- The fields of a `CodeChange` that `_get_new_code_lines` reads: the target
file, the (possibly fractional) inclusive line range, and the effect of
`change.apply` on a line buffer.  The `CodeChange` class itself lives outside
the embedded sources, so `apply` is carried as an opaque function. -/
structure CodeChange where
  file : String
  first_changed_line : ℚ
  last_changed_line : ℚ
  apply : List String → List String

/-- Outcome of `_get_new_code_lines`: a returned buffer, the `None` sentinel
(staleness confirmation declined), or the raised
`MentatError("Change line number overlap ...")`. -/
inductive ApplyOutcome where
  | ok (lines : List String)
  | declined
  | overlapError (file : String)
deriving DecidableEq, Repr

/-- The tail-padding step: if the ceiling of the largest `last_changed_line`
exceeds `len(new_code_lines) + 1`, extend the buffer with that many empty
lines. -/
def padForChanges (lines : List String) (largest : ℤ) : List String :=
  if largest > (lines.length : ℤ) + 1
  then lines ++ List.replicate (largest - ((lines.length : ℤ) + 1)).toNat ""
  else lines

/-- The application loop of `_get_new_code_lines`: fail on
`change.last_changed_line >= min_changed_line`, otherwise lower
`min_changed_line` to the change's `first_changed_line` and apply it. -/
def applyLoop (minChanged : ℚ) (buf : List String) : List CodeChange → ApplyOutcome
  | [] => ApplyOutcome.ok buf
  | c :: rest =>
    if minChanged ≤ c.last_changed_line then ApplyOutcome.overlapError c.file
    else applyLoop c.first_changed_line (c.apply buf) rest

/-- The post-conflict-resolution core of `_get_new_code_lines`: `fileLines`
is the session's cached snapshot (`self.file_lines[rel_path]`), `diskLines`
the fresh `self._read_file(rel_path)`, and `confirmOverwrite` the answer the
user would give to the staleness prompt (`ask_yes_no(default_yes=False)`).
An empty change list returns `[]`; a stale file with a declined confirmation
returns the `None` sentinel; otherwise the buffer is padded and the changes
applied highest-first with the overlap guard. -/
def get_new_code_lines (fileLines diskLines : List String)
    (confirmOverwrite : Bool) (changes : List CodeChange) : ApplyOutcome :=
  match changes with
  | [] => ApplyOutcome.ok []
  | c0 :: _ =>
    if fileLines ≠ diskLines ∧ confirmOverwrite = false then ApplyOutcome.declined
    else
      applyLoop ((⌈c0.last_changed_line⌉ : ℚ) + 1)
        (padForChanges fileLines ⌈c0.last_changed_line⌉) changes

/-- The per-file write step of `write_changes_to_files`: the buffer is written
only when `_get_new_code_lines` returned a truthy value (`if new_code_lines:`),
i.e. neither `None` nor the empty list.  `none` means no write happens. -/
def written_changes_for_file (outcome : ApplyOutcome) : Option (List String) :=
  match outcome with
  | ApplyOutcome.ok lines => if lines.isEmpty then none else some lines
  | _ => none

/-- The claim-as-described overlap condition: scanning the changes in order
with `min_changed_line` starting one past the first change's ceiled
`last_changed_line` boundary and dropping to each change's
`first_changed_line`, some change's `last_changed_line` reaches it. -/
def hasOverlapViolation (minChanged : ℚ) : List CodeChange → Bool
  | [] => false
  | c :: rest =>
    decide (minChanged ≤ c.last_changed_line) ||
      hasOverlapViolation c.first_changed_line rest

/-- The session state `_handle_delete` can touch: which paths exist on disk
and which are tracked in `code_context.files`. -/
structure FileContextState where
  disk : List String
  tracked : List String
deriving DecidableEq, Repr

/-- `_delete_file`: drop the path from `code_context.files` when present, then
unlink it from disk. -/
def delete_file (st : FileContextState) (path : String) : FileContextState :=
  { disk := st.disk.erase path,
    tracked := if path ∈ st.tracked then st.tracked.erase path else st.tracked }

/-- The `default_yes` argument `_handle_delete` passes to
`user_input_manager.ask_yes_no`. -/
def deleteConfirmDefaultYes : Bool := false

/-- `_handle_delete`: a non-existent path is reported and skipped; otherwise
the file is deleted exactly when the confirmation answer is yes. -/
def handle_delete (answer : Bool) (st : FileContextState) (path : String) :
    FileContextState :=
  if path ∉ st.disk then st
  else if answer then delete_file st path
  else st

/-!
## Parse-loop lemmas and the error characterization (claims C5, C9)
-/

/-- A `+`/`-` line before any hunk header, scanning past ignored lines:
exactly the situation in which `_parse_diff` raises `UserError`. -/
def prematureContent : List String → Bool
  | [] => false
  | l :: ls =>
    if isSkipLine l then prematureContent ls
    else if isHunkLine l then false
    else if isContentLine l then true
    else prematureContent ls

/-- A hunk-header line whose number extraction succeeds. -/
def headerOk (l : String) : Bool :=
  match parseHunkStart l with
  | Except.ok _ => true
  | Except.error _ => false

/-- Every `@@` line in the list has an extractable new-file start. -/
def headersOk (ls : List String) : Bool :=
  ls.all (fun l => !isHunkLine l || headerOk l)

theorem parseHunkStart_error {l : String} {e : PyErr}
    (h : parseHunkStart l = Except.error e) :
    e = PyErr.indexError ∨ e = PyErr.valueError := by
  unfold parseHunkStart at h
  cases hg : (pySplitChar ' ' l).get? 2 with
  | none => rw [hg] at h; exact Or.inl (by injection h with h; exact h.symm)
  | some tok =>
    rw [hg] at h
    simp only at h
    cases hi : pyInt (if pyContains tok ',' then (pySplitChar ',' (pyDrop tok 1)).headD ""
        else pyDrop tok 1) with
    | none => rw [hi] at h; exact Or.inr (by injection h with h; exact h.symm)
    | some n => rw [hi] at h; cases h

theorem parseLoop_some_no_userError :
    ∀ (ls : List String) (a : DiffAnnotation) (acc : List DiffAnnotation) (s : String),
      parseLoop ls (some a) acc ≠ Except.error (PyErr.userError s) := by
  intro ls
  induction ls with
  | nil => intro a acc s h; cases h
  | cons l ls ih =>
    intro a acc s h
    by_cases hsk : isSkipLine l
    · rw [parseLoop, if_pos hsk] at h; exact ih a acc s h
    · by_cases hhk : isHunkLine l
      · rw [parseLoop, if_neg hsk, if_pos hhk] at h
        cases hp : parseHunkStart l with
        | error e =>
          rw [hp] at h
          rcases parseHunkStart_error hp with he | he <;> · subst he; cases h
        | ok v => rw [hp] at h; exact ih _ _ s h
      · by_cases hct : isContentLine l
        · rw [parseLoop, if_neg hsk, if_neg hhk, if_pos hct] at h
          exact ih _ _ s h
        · rw [parseLoop, if_neg hsk, if_neg hhk, if_neg hct] at h
          exact ih a acc s h

theorem parseLoop_none_userError_iff :
    ∀ (ls : List String) (acc : List DiffAnnotation),
      (parseLoop ls none acc = Except.error (PyErr.userError "Invalid diff") ↔
        prematureContent ls = true) := by
  intro ls
  induction ls with
  | nil =>
    intro acc
    constructor
    · intro h; cases h
    · intro h; cases h
  | cons l ls ih =>
    intro acc
    by_cases hsk : isSkipLine l
    · rw [parseLoop, if_pos hsk, prematureContent, if_pos hsk]; exact ih acc
    · by_cases hhk : isHunkLine l
      · rw [parseLoop, if_neg hsk, if_pos hhk, prematureContent, if_neg hsk, if_pos hhk]
        cases hp : parseHunkStart l with
        | error e =>
          constructor
          · intro h
            rcases parseHunkStart_error hp with he | he <;> · subst he; cases h
          · intro h; cases h
        | ok v =>
          constructor
          · intro h; exact absurd h (parseLoop_some_no_userError _ _ _ _)
          · intro h; cases h
      · by_cases hct : isContentLine l
        · rw [parseLoop, if_neg hsk, if_neg hhk, if_pos hct,
            prematureContent, if_neg hsk, if_neg hhk, if_pos hct]
          simp
        · rw [parseLoop, if_neg hsk, if_neg hhk, if_neg hct,
            prematureContent, if_neg hsk, if_neg hhk, if_neg hct]
          exact ih acc

theorem parseLoop_some_ok :
    ∀ (ls : List String) (a : DiffAnnotation) (acc : List DiffAnnotation),
      headersOk ls = true → ∃ r, parseLoop ls (some a) acc = Except.ok r := by
  intro ls
  induction ls with
  | nil => intro a acc _; exact ⟨_, rfl⟩
  | cons l ls ih =>
    intro a acc hok
    have hok' : headersOk ls = true := by
      simp only [headersOk, List.all_cons, Bool.and_eq_true] at hok
      exact hok.2
    by_cases hsk : isSkipLine l
    · rw [parseLoop, if_pos hsk]; exact ih a acc hok'
    · by_cases hhk : isHunkLine l
      · rw [parseLoop, if_neg hsk, if_pos hhk]
        have hh : headerOk l = true := by
          simp only [headersOk, List.all_cons, Bool.and_eq_true] at hok
          rcases hok with ⟨h1, _⟩
          cases hok2 : headerOk l
          · rw [hhk, hok2] at h1; cases h1
          · rfl
        cases hp : parseHunkStart l with
        | error e => rw [headerOk, hp] at hh; cases hh
        | ok v => exact ih _ _ hok'
      · by_cases hct : isContentLine l
        · rw [parseLoop, if_neg hsk, if_neg hhk, if_pos hct]
          exact ih _ acc hok'
        · rw [parseLoop, if_neg hsk, if_neg hhk, if_neg hct]
          exact ih a acc hok'

theorem parseLoop_none_ok :
    ∀ (ls : List String) (acc : List DiffAnnotation),
      headersOk ls = true → prematureContent ls = false →
      ∃ r, parseLoop ls none acc = Except.ok r := by
  intro ls
  induction ls with
  | nil => intro acc _ _; exact ⟨_, rfl⟩
  | cons l ls ih =>
    intro acc hok hpre
    have hok' : headersOk ls = true := by
      simp only [headersOk, List.all_cons, Bool.and_eq_true] at hok
      exact hok.2
    by_cases hsk : isSkipLine l
    · rw [parseLoop, if_pos hsk]
      rw [prematureContent, if_pos hsk] at hpre
      exact ih acc hok' hpre
    · by_cases hhk : isHunkLine l
      · rw [parseLoop, if_neg hsk, if_pos hhk]
        have hh : headerOk l = true := by
          simp only [headersOk, List.all_cons, Bool.and_eq_true] at hok
          rcases hok with ⟨h1, _⟩
          cases hok2 : headerOk l
          · rw [hhk, hok2] at h1; cases h1
          · rfl
        cases hp : parseHunkStart l with
        | error e => rw [headerOk, hp] at hh; cases hh
        | ok v => exact parseLoop_some_ok ls _ _ hok'
      · by_cases hct : isContentLine l
        · rw [prematureContent, if_neg hsk, if_neg hhk, if_pos hct] at hpre
          cases hpre
        · rw [parseLoop, if_neg hsk, if_neg hhk, if_neg hct]
          rw [prematureContent, if_neg hsk, if_neg hhk, if_neg hct] at hpre
          exact ih acc hok' hpre

deriving instance DecidableEq for Except

theorem mem_insertAnn {b a : DiffAnnotation} :
    ∀ {l : List DiffAnnotation}, b ∈ insertAnn a l ↔ b = a ∨ b ∈ l := by
  intro l
  induction l with
  | nil => simp [insertAnn]
  | cons x xs ih =>
    by_cases hx : x.start < a.start
    · simp only [insertAnn, if_pos hx, List.mem_cons, ih]
      tauto
    · simp only [insertAnn, if_neg hx, List.mem_cons]

theorem mem_sortAnns {a : DiffAnnotation} :
    ∀ {l : List DiffAnnotation}, a ∈ sortAnns l ↔ a ∈ l := by
  intro l
  induction l with
  | nil => simp [sortAnns]
  | cons x xs ih => simp only [sortAnns, mem_insertAnn, ih, List.mem_cons]

theorem insertAnn_of_le {a : DiffAnnotation} :
    ∀ {l : List DiffAnnotation}, (∀ x ∈ l, a.start ≤ x.start) → insertAnn a l = a :: l := by
  intro l h
  cases l with
  | nil => rfl
  | cons b bs =>
    have : ¬ b.start < a.start := not_lt.mpr (h b (List.mem_cons_self b bs))
    simp [insertAnn, this]

theorem sortAnns_of_sorted :
    ∀ {l : List DiffAnnotation},
      List.Pairwise (fun x y => x.start ≤ y.start) l → sortAnns l = l := by
  intro l h
  induction l with
  | nil => rfl
  | cons x xs ih =>
    rw [List.pairwise_cons] at h
    rw [sortAnns, ih h.2, insertAnn_of_le h.1]

/-- The line shape every parsed annotation message line has: it carries a
`+`/`-` sign and is none of the ignored line kinds. -/
def goodMsgLine (l : String) : Bool :=
  (pyStartswith l "+" || pyStartswith l "-") &&
  (!pyStartswith l "---") && (!pyStartswith l "+++") && (!pyStartswith l "//") &&
  (!pyStartswith l " ") && (!pyStartswith l "\\")

theorem listPre_one {c : Char} {d : List Char} :
    listPre [c] d = true ↔ ∃ t, d = c :: t := by
  cases d with
  | nil => simp [listPre]
  | cons x xs =>
    constructor
    · intro h
      have hcx : c = x := by
        by_contra hne
        simp [listPre, hne] at h
      exact ⟨xs, by rw [hcx]⟩
    · rintro ⟨t, he⟩
      injection he with h1 h2
      subst h1
      subst h2
      simp [listPre]

theorem listPre_one_false {c d : Char} {t : List Char} (h : c ≠ d) :
    listPre [c] (d :: t) = false := by
  simp [listPre, h]

theorem parseLoop_cons (l : String) (ls : List String) (active : Option DiffAnnotation)
    (acc : List DiffAnnotation) :
    parseLoop (l :: ls) active acc =
      (if isSkipLine l then parseLoop ls active acc
      else if isHunkLine l then
        match parseHunkStart l with
        | Except.error e => Except.error e
        | Except.ok s => parseLoop ls (some ⟨s, []⟩) (acc ++ active.toList)
      else if isContentLine l then
        match active with
        | none => Except.error (PyErr.userError "Invalid diff")
        | some a => parseLoop ls (some ⟨a.start, a.message ++ [l]⟩) acc
      else parseLoop ls active acc) := by
  cases active <;> rfl

theorem content_line_good {l : String} (hsk : isSkipLine l = false)
    (hct : isContentLine l = true) : goodMsgLine l = true := by
  have hplus : ("+" : String).data = ['+'] := rfl
  have hminus : ("-" : String).data = ['-'] := rfl
  have hspace : (" " : String).data = [' '] := rfl
  have hback : ("\\" : String).data = ['\\'] := rfl
  simp only [isSkipLine, Bool.or_eq_false_iff] at hsk
  obtain ⟨⟨h3m, h3p⟩, h2s⟩ := hsk
  have hct' : pyStartswith l "+" = true ∨ pyStartswith l "-" = true := by
    simpa [isContentLine] using hct
  have hhead : ∃ c t, l.data = c :: t ∧ (c = '+' ∨ c = '-') := by
    rcases hct' with hp | hm
    · obtain ⟨t, ht⟩ := listPre_one.mp (by rw [pyStartswith, hplus] at hp; exact hp)
      exact ⟨'+', t, ht, Or.inl rfl⟩
    · obtain ⟨t, ht⟩ := listPre_one.mp (by rw [pyStartswith, hminus] at hm; exact hm)
      exact ⟨'-', t, ht, Or.inr rfl⟩
  obtain ⟨c, t, ht, hc⟩ := hhead
  have hnsp : pyStartswith l " " = false := by
    rw [pyStartswith, hspace, ht]
    exact listPre_one_false (by rcases hc with rfl | rfl <;> decide)
  have hnbk : pyStartswith l "\\" = false := by
    rw [pyStartswith, hback, ht]
    exact listPre_one_false (by rcases hc with rfl | rfl <;> decide)
  rw [goodMsgLine]
  rw [h3m, h3p, h2s, hnsp, hnbk]
  rcases hct' with hp | hm
  · rw [hp]; rfl
  · rw [hm]
    simp

theorem parseLoop_ok_good :
    ∀ (ls : List String) (active : Option DiffAnnotation)
      (acc anns : List DiffAnnotation),
      (∀ a ∈ acc, ∀ l ∈ a.message, goodMsgLine l = true) →
      (∀ a ∈ active.toList, ∀ l ∈ a.message, goodMsgLine l = true) →
      parseLoop ls active acc = Except.ok anns →
      ∀ a ∈ anns, ∀ l ∈ a.message, goodMsgLine l = true := by
  intro ls
  induction ls with
  | nil =>
    intro active acc anns hacc hact h a ha
    injection h with h
    subst h
    rcases List.mem_append.mp (mem_sortAnns.mp ha) with hm | hm
    · exact hacc a hm
    · exact hact a hm
  | cons l ls ih =>
    intro active acc anns hacc hact h a ha
    by_cases hsk : isSkipLine l
    · rw [parseLoop_cons, if_pos hsk] at h
      exact ih active acc anns hacc hact h a ha
    · by_cases hhk : isHunkLine l
      · rw [parseLoop_cons, if_neg hsk, if_pos hhk] at h
        cases hp : parseHunkStart l with
        | error e => rw [hp] at h; cases h
        | ok v =>
          rw [hp] at h
          refine ih _ _ anns ?_ ?_ h a ha
          · intro x hx
            rcases List.mem_append.mp hx with hm | hm
            · exact hacc x hm
            · exact hact x hm
          · intro x hx l' hl'
            simp only [Option.toList_some, List.mem_singleton] at hx
            subst hx
            cases hl'
      · by_cases hct : isContentLine l
        · rw [parseLoop_cons, if_neg hsk, if_neg hhk, if_pos hct] at h
          cases active with
          | none => cases h
          | some b =>
            refine ih _ acc anns hacc ?_ h a ha
            intro x hx l' hl'
            simp only [Option.toList_some, List.mem_singleton] at hx
            subst hx
            simp only [List.mem_append, List.mem_singleton] at hl'
            rcases hl' with hm | hm
            · exact hact b (by simp) l' hm
            · subst hm
              exact content_line_good (Bool.not_eq_true _ ▸ (by simpa using hsk)) hct
        · rw [parseLoop_cons, if_neg hsk, if_neg hhk, if_neg hct] at h
          exact ih active acc anns hacc hact h a ha

theorem applyLoop_overlap :
    ∀ (cs : List CodeChange) (m : ℚ) (b : List String),
      hasOverlapViolation m cs = true →
      ∃ f, applyLoop m b cs = ApplyOutcome.overlapError f := by
  intro cs
  induction cs with
  | nil => intro m b h; cases h
  | cons c rest ih =>
    intro m b h
    by_cases hle : m ≤ c.last_changed_line
    · exact ⟨c.file, by rw [applyLoop, if_pos hle]⟩
    · rw [hasOverlapViolation] at h
      simp only [hle, decide_False, Bool.false_or] at h
      rw [applyLoop, if_neg hle]
      exact ih _ _ h

theorem get_new_code_lines_cons (fileLines diskLines : List String)
    (confirmOverwrite : Bool) (c0 : CodeChange) (cs : List CodeChange) :
    get_new_code_lines fileLines diskLines confirmOverwrite (c0 :: cs) =
      (if fileLines ≠ diskLines ∧ confirmOverwrite = false then ApplyOutcome.declined
      else applyLoop ((⌈c0.last_changed_line⌉ : ℚ) + 1)
        (padForChanges fileLines ⌈c0.last_changed_line⌉) (c0 :: cs)) := rfl

/-- C1: if the post-resolution changes, processed in descending position
order, contain a change whose `last_changed_line` reaches `min_changed_line`
(initialized to one past the ceiled boundary of the first change, then
lowered to each processed change's `first_changed_line`), then
`_get_new_code_lines` raises the `MentatError` overlap error and no buffer is
returned — the overlapping changes are never silently merged or dropped. -/
theorem c1_overlap_guard_fails (fileLines : List String) (conf : Bool)
    (c0 : CodeChange) (cs : List CodeChange)
    (_hsorted : List.Pairwise
      (fun a b => b.last_changed_line ≤ a.last_changed_line) (c0 :: cs))
    (hviol : hasOverlapViolation ((⌈c0.last_changed_line⌉ : ℚ) + 1) (c0 :: cs) = true) :
    ∃ f, get_new_code_lines fileLines fileLines conf (c0 :: cs) =
      ApplyOutcome.overlapError f := by
  rw [get_new_code_lines_cons]
  rw [if_neg (by simp)]
  exact applyLoop_overlap _ _ _ hviol

/-- Witness for C1 at a concrete overlapping pair of changes. -/
theorem c1_overlap_guard_fails_witness :
    ∃ f, get_new_code_lines ["x"] ["x"] true
      [⟨"f", 1, 3, fun l => l⟩, ⟨"f", 2, 3, fun l => l⟩] =
      ApplyOutcome.overlapError f :=
  c1_overlap_guard_fails ["x"] true ⟨"f", 1, 3, fun l => l⟩ [⟨"f", 2, 3, fun l => l⟩]
    (by constructor
        · intro b hb
          simp only [List.mem_singleton] at hb
          subst hb
          norm_num
        · exact List.pairwise_singleton _ _)
    (by norm_num [hasOverlapViolation])

/-- C2: when the freshly-read on-disk lines differ from the session's cached
snapshot and the staleness confirmation is declined, `_get_new_code_lines`
returns the `None` sentinel for a non-empty change list, and in every case
the per-file write step of `write_changes_to_files` writes nothing. -/
theorem c2_staleness_no_write (fileLines diskLines : List String)
    (changes : List CodeChange) (hne : fileLines ≠ diskLines) :
    written_changes_for_file
        (get_new_code_lines fileLines diskLines false changes) = none ∧
      (changes ≠ [] →
        get_new_code_lines fileLines diskLines false changes =
          ApplyOutcome.declined) := by
  cases changes with
  | nil =>
    constructor
    · rfl
    · intro h; exact absurd rfl h
  | cons c0 cs =>
    have hd : get_new_code_lines fileLines diskLines false (c0 :: cs) =
        ApplyOutcome.declined := by
      rw [get_new_code_lines_cons, if_pos ⟨hne, rfl⟩]
    exact ⟨by rw [hd]; rfl, fun _ => hd⟩

/-- Witness for C2 at a concrete stale file. -/
theorem c2_staleness_no_write_witness :
    written_changes_for_file
        (get_new_code_lines ["a"] ["b"] false [⟨"f", 1, 1, fun l => l⟩]) = none ∧
      ([⟨"f", 1, 1, fun l => l⟩] ≠ ([] : List CodeChange) →
        get_new_code_lines ["a"] ["b"] false [⟨"f", 1, 1, fun l => l⟩] =
          ApplyOutcome.declined) :=
  c2_staleness_no_write ["a"] ["b"] [⟨"f", 1, 1, fun l => l⟩] (by decide)

/-- C7: with changes sorted descending, if the ceiling of the first (hence
highest) `last_changed_line` exceeds `len(buffer) + 1` the buffer is extended
by exactly that many empty lines (reaching length `ceil - 1`) before any
change is applied, and otherwise it is left alone; `_get_new_code_lines`
runs its application loop on exactly this padded buffer. -/
theorem c7_tail_padding (fileLines : List String) (conf : Bool)
    (c0 : CodeChange) (cs : List CodeChange)
    (_hsorted : List.Pairwise
      (fun a b => b.last_changed_line ≤ a.last_changed_line) (c0 :: cs)) :
    ((⌈c0.last_changed_line⌉ : ℤ) > (fileLines.length : ℤ) + 1 →
      padForChanges fileLines ⌈c0.last_changed_line⌉ =
        fileLines ++ List.replicate
          ((⌈c0.last_changed_line⌉ : ℤ) - ((fileLines.length : ℤ) + 1)).toNat "" ∧
      ((padForChanges fileLines ⌈c0.last_changed_line⌉).length : ℤ) =
        (⌈c0.last_changed_line⌉ : ℤ) - 1) ∧
    ((⌈c0.last_changed_line⌉ : ℤ) ≤ (fileLines.length : ℤ) + 1 →
      padForChanges fileLines ⌈c0.last_changed_line⌉ = fileLines) ∧
    get_new_code_lines fileLines fileLines conf (c0 :: cs) =
      applyLoop ((⌈c0.last_changed_line⌉ : ℚ) + 1)
        (padForChanges fileLines ⌈c0.last_changed_line⌉) (c0 :: cs) := by
  refine ⟨?_, ?_, ?_⟩
  · intro hgt
    have heq : padForChanges fileLines ⌈c0.last_changed_line⌉ =
        fileLines ++ List.replicate
          ((⌈c0.last_changed_line⌉ : ℤ) - ((fileLines.length : ℤ) + 1)).toNat "" := by
      rw [padForChanges, if_pos hgt]
    refine ⟨heq, ?_⟩
    rw [heq]
    simp only [List.length_append, List.length_replicate]
    omega
  · intro hle
    rw [padForChanges, if_neg (not_lt.mpr hle)]
  · rw [get_new_code_lines_cons, if_neg (by simp)]

/-- Witness for C7 at a concrete change inserting past the end of file. -/
theorem c7_tail_padding_witness :
    padForChanges ["a"] ⌈(4 : ℚ)⌉ =
        ["a"] ++ List.replicate ((⌈(4 : ℚ)⌉ : ℤ) - (((["a"] : List String).length : ℤ) + 1)).toNat "" ∧
      ((padForChanges ["a"] ⌈(4 : ℚ)⌉).length : ℤ) = (⌈(4 : ℚ)⌉ : ℤ) - 1 :=
  (c7_tail_padding ["a"] true ⟨"f", 4, 4, fun l => l⟩ []
    (List.pairwise_singleton _ _)).1 (by decide)

/-- C8: `_handle_delete` is a no-op when the target path does not exist on
disk or when the confirmation (asked with `default_yes=False`) is answered
no; the file is unlinked and untracked exactly when the path exists and the
answer is yes. -/
theorem c8_delete_confirmation (st : FileContextState) (path : String)
    (answer : Bool) :
    (path ∉ st.disk → handle_delete answer st path = st) ∧
    (answer = false → handle_delete answer st path = st) ∧
    (path ∈ st.disk → answer = true →
      handle_delete answer st path =
        { disk := st.disk.erase path,
          tracked := if path ∈ st.tracked then st.tracked.erase path
            else st.tracked }) ∧
    deleteConfirmDefaultYes = false := by
  refine ⟨?_, ?_, ?_, rfl⟩
  · intro h
    rw [handle_delete, if_pos h]
  · intro h
    subst h
    by_cases hd : path ∉ st.disk
    · rw [handle_delete, if_pos hd]
    · rw [handle_delete, if_neg hd]
      rfl
  · intro hmem hy
    subst hy
    rw [handle_delete, if_neg (by simpa using hmem)]
    rfl

/-- Witness for C8 at a concrete state: a declined delete is a no-op and a
confirmed delete removes the path from disk and tracking. -/
theorem c8_delete_confirmation_witness :
    (handle_delete false ⟨["a", "b"], ["a"]⟩ "a" = ⟨["a", "b"], ["a"]⟩) ∧
      (handle_delete true ⟨["a", "b"], ["a"]⟩ "a" =
        { disk := (["a", "b"] : List String).erase "a",
          tracked := if "a" ∈ (["a"] : List String) then (["a"] : List String).erase "a"
            else ["a"] }) :=
  ⟨(c8_delete_confirmation ⟨["a", "b"], ["a"]⟩ "a" false).2.1 rfl,
    (c8_delete_confirmation ⟨["a", "b"], ["a"]⟩ "a" true).2.2.1 (by decide) rfl⟩

/-- C10: weaving any numbered listing with the empty annotation list returns
the listing unchanged. -/
theorem c10_weave_empty_identity (codeMessage : List String) :
    annotate_file_message codeMessage [] = some codeMessage := by
  cases codeMessage with
  | nil => rfl
  | cons x xs =>
    rw [annotate_file_message]
    simp [annotateGo]

/-- C5 (amended): `_parse_diff` raises `UserError("Invalid diff")` exactly
when, among the lines after the four discarded header lines, a `+`/`-`
content line (not one of the ignored `---`/`+++`/`//` lines) occurs before
any `@@` hunk-header line; and for inputs with no such premature content
line it returns an annotation list provided every `@@` line also carries an
extractable new-file start (a short or non-numeric `@@` line instead raises
`IndexError`/`ValueError`, so the unrestricted completeness stated by the
original claim fails). -/
theorem c5_parse_error_characterization (lines : List String) :
    (parse_diff lines = Except.error (PyErr.userError "Invalid diff") ↔
      prematureContent (lines.drop 4) = true) ∧
    (prematureContent (lines.drop 4) = false →
      headersOk (lines.drop 4) = true →
      ∃ anns, parse_diff lines = Except.ok anns) := by
  constructor
  · exact parseLoop_none_userError_iff (lines.drop 4) []
  · intro hpre hok
    exact parseLoop_none_ok (lines.drop 4) [] hok hpre

/-- Witness for C5 on a concrete well-formed diff: no premature content, and
parsing returns an annotation list. -/
theorem c5_parse_error_characterization_witness :
    ∃ anns, parse_diff
      ["diff --git a/f b/f", "index 1..2 100644", "--- a/f", "+++ b/f",
        "@@ -1,2 +3,4 @@", "+x"] = Except.ok anns :=
  (c5_parse_error_characterization
    ["diff --git a/f b/f", "index 1..2 100644", "--- a/f", "+++ b/f",
      "@@ -1,2 +3,4 @@", "+x"]).2 (by decide) (by decide)

/-- Counterexample to C5 as stated: a diff whose post-header lines are the
single line `"@@"` has no premature content line, yet `_parse_diff` does not
return normally — `line.split(" ")[2]` raises `IndexError`. -/
theorem c5_counterexample :
    prematureContent
        ((["diff --git a/f b/f", "index 1..2 100644", "--- a/f", "+++ b/f",
          "@@"]).drop 4) = false ∧
      parse_diff ["diff --git a/f b/f", "index 1..2 100644", "--- a/f",
        "+++ b/f", "@@"] = Except.error PyErr.indexError := by
  exact ⟨by decide, by decide⟩

/-- C9: every message line of every annotation returned by `_parse_diff`
starts with `+` or `-`, and none of the ignored kinds — `---`, `+++`, `//`
file markers, space-prefixed context lines, or backslash-prefixed no-newline
markers — is ever included. -/
theorem c9_message_lines (lines : List String) (anns : List DiffAnnotation)
    (h : parse_diff lines = Except.ok anns) :
    ∀ a ∈ anns, ∀ l ∈ a.message,
      (pyStartswith l "+" = true ∨ pyStartswith l "-" = true) ∧
        pyStartswith l "---" = false ∧ pyStartswith l "+++" = false ∧
        pyStartswith l "//" = false ∧ pyStartswith l " " = false ∧
        pyStartswith l "\\" = false := by
  intro a ha l hl
  have hg := parseLoop_ok_good (lines.drop 4) none [] anns
    (by intro x hx; cases hx) (by intro x hx; cases hx) h a ha l hl
  simp only [goodMsgLine, Bool.and_eq_true, Bool.or_eq_true, Bool.not_eq_true'] at hg
  exact ⟨hg.1.1.1.1.1, hg.1.1.1.1.2, hg.1.1.1.2, hg.1.1.2, hg.1.2, hg.2⟩

/-- Witness for C9 on a concrete parsed diff and message line. -/
theorem c9_message_lines_witness :
    (pyStartswith "-ab" "+" = true ∨ pyStartswith "-ab" "-" = true) ∧
      pyStartswith "-ab" "---" = false ∧ pyStartswith "-ab" "+++" = false ∧
      pyStartswith "-ab" "//" = false ∧ pyStartswith "-ab" " " = false ∧
      pyStartswith "-ab" "\\" = false :=
  c9_message_lines
    ["h1", "h2", "h3", "h4", "@@ -1,3 +1,3 @@", "-ab", "+cd"]
    [⟨1, ["-ab", "+cd"]⟩] (by decide) ⟨1, ["-ab", "+cd"]⟩ (by decide)
    "-ab" (by decide)

/-!
## Specification-side weaver (claim C3)

`blockSpec`/`weaveBody` restate the weaving algorithm the way the spec
describes it: a plain natural-number `i_minus` counter (0 at hunk start,
reset by each `+` line), a cursor advanced once per `+` line and otherwise
left alone, gap copies expressed with `take`/`drop`, and total functions
(no crash cases).  The refinement theorem below identifies the source
embedding with this description.
-/

/-- Claim-side emission for one annotation: each `+` line is tagged with the
current cursor which then advances by one and resets `i_minus`; each `-`
line is tagged `start + i_minus` without advancing the cursor, `i_minus`
incrementing per consecutive `-`. -/
def blockSpec (startA : Nat) : List String → Nat → Nat → List String
  | [], _, _ => []
  | l :: rest, cursor, iMinus =>
    if pyStartswith l "+" then tagLine cursor l :: blockSpec startA rest (cursor + 1) 0
    else if pyStartswith l "-" then
      tagLine (startA + iMinus) l :: blockSpec startA rest cursor (iMinus + 1)
    else blockSpec startA rest cursor iMinus

/-- Number of `+` lines in a message: how far the cursor advances. -/
def plusIn (msg : List String) : Nat := msg.countP (fun l => pyStartswith l "+")

/-- Cursor position at which an annotation's message is processed (the
header re-emission at `start = 0` bumps it to 1). -/
def annBase (ann : DiffAnnotation) : Nat := if ann.start = 0 then 1 else ann.start

/-- Claim-side weave: per annotation, copy the listing lines from the cursor
up to (strictly before) the annotation's start, re-emit the header when
`start = 0`, emit the annotation block, and continue with the cursor
advanced by the number of `+` lines; the final cursor is returned. -/
def weaveBody (codeMessage : List String) : List DiffAnnotation → Nat → List String × Nat
  | [], active => ([], active)
  | ann :: rest, active =>
    let gap := (codeMessage.drop active).take (ann.start - active)
    let headerPart := if ann.start = 0 then [codeMessage.headD ""] else []
    let next := weaveBody codeMessage rest (annBase ann + plusIn ann.message)
    (gap ++ headerPart ++ blockSpec ann.start ann.message (annBase ann) 0 ++ next.1,
      next.2)

/-- Claim-side weave of a whole listing: the body followed by the copy of
all input lines from the final cursor to the end. -/
def weaveSpec (codeMessage : List String) (anns : List DiffAnnotation) : List String :=
  (weaveBody codeMessage anns 0).1 ++
    codeMessage.drop (weaveBody codeMessage anns 0).2

theorem pyStartswith_of_data {l : String} {c0 : Char} {t : List Char}
    (h : l.data = c0 :: t) {c : Char} {p : String} (hp : p.data = [c]) :
    pyStartswith l p = decide (c = c0) := by
  rw [pyStartswith, hp, h]
  simp [listPre]

theorem processMessage_cons (s : Nat) (line : String) (rest : List String)
    (active : Nat) (iMinus : Option Nat) :
    processMessage s (line :: rest) active iMinus =
      (match line.data.head? with
      | none => none
      | some sign =>
        if sign = '+' then
          (processMessage s rest (active + 1) none).map
            (fun p => (tagLine active line :: p.1, p.2))
        else if sign = '-' then
          (processMessage s rest active (some (iMinus.getD 0 + 1))).map
            (fun p => (tagLine (s + iMinus.getD 0) line :: p.1, p.2))
        else processMessage s rest active iMinus) := rfl

theorem head_eq_of_data {l : String} {c : Char} {t : List Char}
    (h : l.data = c :: t) : l.data.head? = some c := by
  rw [h]; rfl

theorem processMessage_cons_plus (s : Nat) {l : String} {t : List Char}
    (h : l.data = '+' :: t) (rest : List String) (active : Nat)
    (iMinus : Option Nat) :
    processMessage s (l :: rest) active iMinus =
      (processMessage s rest (active + 1) none).map
        (fun p => (tagLine active l :: p.1, p.2)) := by
  rw [processMessage_cons, head_eq_of_data h]
  simp

theorem processMessage_cons_minus (s : Nat) {l : String} {t : List Char}
    (h : l.data = '-' :: t) (rest : List String) (active : Nat)
    (iMinus : Option Nat) :
    processMessage s (l :: rest) active iMinus =
      (processMessage s rest active (some (iMinus.getD 0 + 1))).map
        (fun p => (tagLine (s + iMinus.getD 0) l :: p.1, p.2)) := by
  rw [processMessage_cons, head_eq_of_data h]
  simp

theorem processMessage_cons_other (s : Nat) {l : String} {c0 : Char}
    {t : List Char} (h : l.data = c0 :: t) (hp : c0 ≠ '+') (hm : c0 ≠ '-')
    (rest : List String) (active : Nat) (iMinus : Option Nat) :
    processMessage s (l :: rest) active iMinus =
      processMessage s rest active iMinus := by
  rw [processMessage_cons, head_eq_of_data h]
  simp [hp, hm]

theorem processMessage_none_some_zero (s : Nat) :
    ∀ (msg : List String) (active : Nat),
      processMessage s msg active none = processMessage s msg active (some 0) := by
  intro msg
  induction msg with
  | nil => intro active; rfl
  | cons l rest ih =>
    intro active
    cases hc : l.data with
    | nil =>
      rw [processMessage_cons, processMessage_cons, hc]
      rfl
    | cons c0 t =>
      by_cases hp : c0 = '+'
      · subst hp
        rw [processMessage_cons_plus s hc, processMessage_cons_plus s hc]
      · by_cases hm : c0 = '-'
        · subst hm
          rw [processMessage_cons_minus s hc, processMessage_cons_minus s hc]
          simp
        · rw [processMessage_cons_other s hc hp hm,
            processMessage_cons_other s hc hp hm]
          exact ih active

theorem processMessage_eq_blockSpec (s : Nat) :
    ∀ (msg : List String), (∀ l ∈ msg, l.data ≠ []) →
      ∀ (active k : Nat),
        processMessage s msg active (some k) =
          some (blockSpec s msg active k, active + plusIn msg) := by
  intro msg
  induction msg with
  | nil =>
    intro _ active k
    show some ([], active) = some (blockSpec s [] active k, active + plusIn [])
    simp [blockSpec, plusIn]
  | cons l rest ih =>
    intro hlines active k
    have hl : l.data ≠ [] := hlines l (List.mem_cons_self l rest)
    have hrest : ∀ l' ∈ rest, l'.data ≠ [] :=
      fun l' h' => hlines l' (List.mem_cons_of_mem l h')
    obtain ⟨c0, t, hdata⟩ : ∃ c0 t, l.data = c0 :: t := by
      cases hc : l.data with
      | nil => exact absurd hc hl
      | cons a b => exact ⟨a, b, rfl⟩
    have hplus : pyStartswith l "+" = decide ('+' = c0) :=
      pyStartswith_of_data hdata rfl
    have hminus : pyStartswith l "-" = decide ('-' = c0) :=
      pyStartswith_of_data hdata rfl
    by_cases hp : c0 = '+'
    · subst hp
      have hcond : pyStartswith l "+" = true := by rw [hplus]; simp
      rw [processMessage_cons_plus s hdata, processMessage_none_some_zero,
        ih hrest (active + 1) 0]
      simp only [Option.map_some']
      rw [blockSpec, if_pos hcond]
      have hcount : plusIn (l :: rest) = plusIn rest + 1 := by
        simp [plusIn, List.countP_cons, hcond]
      rw [hcount]
      have harith : active + 1 + plusIn rest = active + (plusIn rest + 1) := by omega
      rw [harith]
    · by_cases hm : c0 = '-'
      · subst hm
        have hcondp : pyStartswith l "+" = false := by rw [hplus]; simp
        have hcondm : pyStartswith l "-" = true := by rw [hminus]; simp
        rw [processMessage_cons_minus s hdata]
        simp only [Option.getD_some]
        rw [ih hrest active (k + 1)]
        simp only [Option.map_some']
        rw [blockSpec, if_neg (by simp [hcondp]), if_pos hcondm]
        have hcount : plusIn (l :: rest) = plusIn rest := by
          simp [plusIn, List.countP_cons, hcondp]
        rw [hcount]
      · have hcondp : pyStartswith l "+" = false := by
          rw [hplus]; simp [Ne.symm hp]
        have hcondm : pyStartswith l "-" = false := by
          rw [hminus]; simp [Ne.symm hm]
        rw [processMessage_cons_other s hdata hp hm, ih hrest active k]
        rw [blockSpec, if_neg (by simp [hcondp]), if_neg (by simp [hcondm])]
        have hcount : plusIn (l :: rest) = plusIn rest := by
          simp [plusIn, List.countP_cons, hcondp]
        rw [hcount]

theorem gap_if_eq (m : List String) (a s : Nat) :
    (if a < s then (m.drop a).take (s - a) else []) = (m.drop a).take (s - a) := by
  by_cases h : a < s
  · rw [if_pos h]
  · rw [if_neg h, Nat.sub_eq_zero_of_le (not_lt.mp h), List.take_zero]

theorem annotateGo_cons_eq (codeMessage : List String) (ann : DiffAnnotation)
    (rest : List DiffAnnotation) (active : Nat) :
    annotateGo codeMessage (ann :: rest) active =
      (if ann.start = 0 then
        codeMessage.head?.bind (fun h =>
          (processMessage ann.start ann.message 1 none).bind (fun p =>
            (annotateGo codeMessage rest p.2).map (fun q =>
              ((if active < ann.start then
                  (codeMessage.drop active).take (ann.start - active) else []) ++
                h :: p.1 ++ q.1, q.2))))
      else
        (processMessage ann.start ann.message ann.start none).bind (fun p =>
          (annotateGo codeMessage rest p.2).map (fun q =>
            ((if active < ann.start then
                (codeMessage.drop active).take (ann.start - active) else []) ++
              p.1 ++ q.1, q.2)))) := rfl

theorem weaveBody_cons (codeMessage : List String) (ann : DiffAnnotation)
    (rest : List DiffAnnotation) (active : Nat) :
    weaveBody codeMessage (ann :: rest) active =
      ((codeMessage.drop active).take (ann.start - active) ++
        (if ann.start = 0 then [codeMessage.headD ""] else []) ++
        blockSpec ann.start ann.message (annBase ann) 0 ++
        (weaveBody codeMessage rest (annBase ann + plusIn ann.message)).1,
      (weaveBody codeMessage rest (annBase ann + plusIn ann.message)).2) := rfl

theorem annotateGo_eq_weaveBody (codeMessage : List String)
    (hne : codeMessage ≠ []) :
    ∀ (anns : List DiffAnnotation),
      (∀ a ∈ anns, ∀ l ∈ a.message, l.data ≠ []) →
      ∀ active, annotateGo codeMessage anns active =
        some (weaveBody codeMessage anns active) := by
  intro anns
  induction anns with
  | nil => intro _ active; rfl
  | cons ann rest ih =>
    intro hlines active
    have hma : ∀ l ∈ ann.message, l.data ≠ [] :=
      fun l hl => hlines ann (List.mem_cons_self ann rest) l hl
    have hrest : ∀ a ∈ rest, ∀ l ∈ a.message, l.data ≠ [] :=
      fun a ha l hl => hlines a (List.mem_cons_of_mem ann ha) l hl
    rw [annotateGo_cons_eq, weaveBody_cons]
    by_cases h0 : ann.start = 0
    · rw [if_pos h0]
      obtain ⟨m, ms, rfl⟩ : ∃ m ms, codeMessage = m :: ms := by
        cases codeMessage with
        | nil => exact absurd rfl hne
        | cons m ms => exact ⟨m, ms, rfl⟩
      rw [List.head?_cons, Option.some_bind, processMessage_none_some_zero,
        processMessage_eq_blockSpec ann.start ann.message hma, Option.some_bind,
        ih hrest, Option.map_some']
      simp only [annBase, if_pos h0, h0, gap_if_eq, Nat.zero_sub, List.take_zero,
        List.headD_cons, List.nil_append]
      rfl
    · rw [if_neg h0]
      rw [processMessage_none_some_zero,
        processMessage_eq_blockSpec ann.start ann.message hma, Option.some_bind,
        ih hrest, Option.map_some']
      simp only [annBase, if_neg h0, gap_if_eq]
      simp

theorem tail_if_eq (m : List String) (c : Nat) :
    (if c < m.length then m.drop c else []) = m.drop c := by
  by_cases h : c < m.length
  · rw [if_pos h]
  · rw [if_neg h, List.drop_eq_nil_of_le (not_lt.mp h)]

/-- C3: for any numbered listing and ascending-sorted annotations (with the
non-empty message lines the parser produces), the weaver behaves exactly as
the claim describes: each `+` message line is tagged with the current cursor
value which then advances by one (resetting `i_minus`), each `-` line is
tagged `annotation.start + i_minus` without advancing the cursor (`i_minus`
starting at 0 at hunk start or after a `+` line and incrementing per
consecutive `-`), listing lines strictly before each annotation's start are
copied through unchanged, and all lines from the final cursor onward are
copied through at the end.  `weaveSpec`/`weaveBody`/`blockSpec` restate the
claim with a plain counter and `take`/`drop` copies (including the spec's
`start = 0` header re-emission), and the source embedding equals them. -/
theorem c3_weaver_emission (codeMessage : List String)
    (anns : List DiffAnnotation) (hne : codeMessage ≠ [])
    (_hsorted : List.Pairwise (fun a b => a.start ≤ b.start) anns)
    (hlines : ∀ a ∈ anns, ∀ l ∈ a.message, l.data ≠ []) :
    annotate_file_message codeMessage anns = some (weaveSpec codeMessage anns) := by
  rw [annotate_file_message, annotateGo_eq_weaveBody codeMessage hne anns hlines 0,
    Option.map_some', weaveSpec, tail_if_eq]

/-- Witness for C3 on a concrete listing and annotation. -/
theorem c3_weaver_emission_witness :
    annotate_file_message ["p", "1:a", "2:b", "3:c"] [⟨2, ["-x", "+y"]⟩] =
      some (weaveSpec ["p", "1:a", "2:b", "3:c"] [⟨2, ["-x", "+y"]⟩]) :=
  c3_weaver_emission ["p", "1:a", "2:b", "3:c"] [⟨2, ["-x", "+y"]⟩]
    (by decide) (List.pairwise_singleton _ _) (by decide)

/-!
## The concrete scenario of claim C6
-/

/-- The diff text of the claimed scenario (four header lines, then the single
hunk `@@ -1,3 +1,3 @@` with one removed and one added line), already split
into lines. -/
def c6Diff : List String :=
  ["diff --git a/ops b/ops", "index 0000000..1111111 100644", "--- a/ops",
    "+++ b/ops", "@@ -1,3 +1,3 @@", "-    return a / b", "+    return commit3"]

/-- A numbered listing of the claimed shape: a path header, entries numbered
0 through 13, and the last numbered entry `14:    return a / b`. -/
def c6Listing : List String :=
  ["path", "0:", "1:", "2:", "3:", "4:", "5:", "6:", "7:", "8:", "9:", "10:",
    "11:", "12:", "13:", "14:    return a / b"]

/-- Counterexample to C6 as stated: parsing the claimed diff yields an
annotation with new-file start 1 (taken from `+1,3` in the header), so
weaving tags both hunk lines `1:`, not `14:`; the output is not the listing
minus its last entry followed by the `14:`-tagged pair. -/
theorem c6_counterexample :
    parse_diff c6Diff =
      Except.ok [⟨1, ["-    return a / b", "+    return commit3"]⟩] ∧
    annotate_file_message c6Listing
        [⟨1, ["-    return a / b", "+    return commit3"]⟩] ≠
      some (c6Listing.dropLast ++
        ["14:-    return a / b", "14:+    return commit3"]) := by
  exact ⟨by decide, by decide⟩

/-- C6 (amended): parsing the diff with hunk header `@@ -1,3 +1,3 @@` and
body `-    return a / b`, `+    return commit3`, and weaving the result into
the listing, yields the path header followed by the removed and added lines
both tagged `1:` (the hunk's new-file start), with the listing entry
numbered 0 consumed and everything from the entry numbered 1 onward copied
through.  (The `14:` tags of the test fixture would require a hunk with
new-file start 14, e.g. header `@@ -14 +14 @@`, not the header stated in the
claim.) -/
theorem c6_concrete_weave :
    parse_diff c6Diff =
      Except.ok [⟨1, ["-    return a / b", "+    return commit3"]⟩] ∧
    annotate_file_message c6Listing
        [⟨1, ["-    return a / b", "+    return commit3"]⟩] =
      some (["path", "1:-    return a / b", "1:+    return commit3"] ++
        c6Listing.drop 2) := by
  exact ⟨by decide, by decide⟩

/-!
## A model of well-formed unified diffs (claim C4)

The diff text `_parse_diff` consumes is produced externally by git.  To state
C4 we model a well-formed zero-context ("U0") unified diff as a list of
hunks against a known old file: each hunk replaces the `removed` lines found
at a 0-based position of the old file by its `added` lines, consecutive
hunks are separated by at least one unchanged line (as git merges adjacent
changes into one hunk), and the rendered hunk headers carry the 1-based
old-file and new-file starts exactly as git writes them (`start,count`, with
the start not bumped for a pure deletion/insertion).
-/

/-- One hunk of the modelled diff: `removed` occupies old-file positions
`pos, pos+1, ...` (0-based) and is replaced by `added`. -/
structure Hunk where
  pos : Nat
  removed : List String
  added : List String
deriving DecidableEq, Repr

/-- The 1-based old-file start written in the header (`pos` itself for a
pure insertion, which git anchors after old line `pos`). -/
def hunkOldStart (h : Hunk) : Nat := if h.removed.isEmpty then h.pos else h.pos + 1

/-- The 1-based new-file start written in the header, given the 0-based
new-file position `newPos` of the hunk (`newPos` itself for a pure
deletion, which git anchors after new line `newPos`). -/
def hunkNewStart (newPos : Nat) (h : Hunk) : Nat :=
  if h.added.isEmpty then newPos else newPos + 1

/-- The rendered header line `@@ -a,m +b,n @@`. -/
def hunkHeaderStr (a m b n : Nat) : String :=
  ⟨['@', '@', ' ', '-'] ++ natCharsOf a ++ [','] ++ natCharsOf m ++
    [' ', '+'] ++ natCharsOf b ++ [','] ++ natCharsOf n ++ [' ', '@', '@']⟩

/-- The rendered lines of one hunk: the header, the `-`-prefixed removed
lines, then the `+`-prefixed added lines. -/
def renderHunk (a b : Nat) (h : Hunk) : List String :=
  hunkHeaderStr a h.removed.length b h.added.length ::
    (h.removed.map (strCons '-') ++ h.added.map (strCons '+'))

/-- Rendered hunk lines of a diff body; `lo` is the next unconsumed 0-based
old position and `nl` the number of new-file lines produced so far. -/
def renderBody : Nat → Nat → List Hunk → List String
  | _, _, [] => []
  | lo, nl, h :: rest =>
    renderHunk (hunkOldStart h) (hunkNewStart (nl + (h.pos - lo)) h) h ++
      renderBody (h.pos + h.removed.length) (nl + (h.pos - lo) + h.added.length) rest

/-- A whole rendered diff: four file-identity header lines then the body. -/
def renderDiff (hunks : List Hunk) : List String :=
  ["diff --git a/x b/x", "index 1111111..2222222 100644", "--- a/x", "+++ b/x"] ++
    renderBody 0 0 hunks

/-- Well-formedness of the hunk list against the old file: positions are
monotone with at least one unchanged line between hunks, each hunk's
`removed` really is the old-file segment at its position, no hunk is empty,
and every rendered new-file start is at least 1 (the annotation weaver's
`start = 0` header special case is out of scope of the claim). -/
def hunksWF (old : List String) : Nat → Nat → Nat → List Hunk → Bool
  | _, _, _, [] => true
  | minPos, lo, nl, h :: rest =>
    decide (minPos ≤ h.pos) &&
    decide (h.pos + h.removed.length ≤ old.length) &&
    decide (h.removed = (old.drop h.pos).take h.removed.length) &&
    (!(h.removed.isEmpty && h.added.isEmpty)) &&
    decide (1 ≤ hunkNewStart (nl + (h.pos - lo)) h) &&
    hunksWF old (h.pos + h.removed.length + 1) (h.pos + h.removed.length)
      (nl + (h.pos - lo) + h.added.length) rest

/-- The rendered content lines must not collide with the parser's ignored
prefixes: a removed line starting `--` would render as `---...` and an added
line starting `++` as `+++...`, which `_parse_diff` silently drops. -/
def rendersClean (hs : List Hunk) : Bool :=
  hs.all (fun h =>
    h.removed.all (fun l => !pyStartswith l "--") &&
    h.added.all (fun l => !pyStartswith l "++"))

/-- The annotations the parser recovers from the rendered diff. -/
def hunkViews : Nat → Nat → List Hunk → List DiffAnnotation
  | _, _, [] => []
  | lo, nl, h :: rest =>
    ⟨hunkNewStart (nl + (h.pos - lo)) h,
      h.removed.map (strCons '-') ++ h.added.map (strCons '+')⟩ ::
    hunkViews (h.pos + h.removed.length) (nl + (h.pos - lo) + h.added.length) rest

/-- Sign-prefixed lines tagged with consecutive numbers starting at `k0`. -/
def tagsFrom (sgn : Char) (k0 : Nat) : List String → List String
  | [] => []
  | l :: ls => tagLine k0 (strCons sgn l) :: tagsFrom sgn (k0 + 1) ls

/-- The 1-based numbered listing the engine builds for a file
(`f"{i}:{line}"` with `enumerate(..., start=1)`), behind a path header. -/
def numberLines (k : Nat) : List String → List String
  | [] => []
  | l :: ls => tagLine k l :: numberLines (k + 1) ls

/-- A numbered listing: the path header then the 1-based numbered old lines. -/
def numberedListing (path : String) (old : List String) : List String :=
  path :: numberLines 1 old

/-- The woven output the amended claim describes, hunk by hunk: copy the
listing entries from the cursor up to the hunk's new-file start `b`, tag the
removed lines `b, b+1, ...` (the new-file numbers at the deletion point) and
the added lines `b, b+1, ...` (their true new-file line numbers), and
continue with the cursor at `b +` (number of added lines); the final cursor
is returned alongside. -/
def expectedWeave (listing : List String) : Nat → Nat → Nat → List Hunk →
    List String × Nat
  | cursor, _, _, [] => ([], cursor)
  | cursor, lo, nl, h :: rest =>
    let b := hunkNewStart (nl + (h.pos - lo)) h
    let next := expectedWeave listing (b + h.added.length)
      (h.pos + h.removed.length) (nl + (h.pos - lo) + h.added.length) rest
    ((listing.drop cursor).take (b - cursor) ++
      tagsFrom '-' b h.removed ++ tagsFrom '+' b h.added ++ next.1, next.2)

/-- The full expected woven listing: the hunk blocks and gap copies followed
by the listing entries from the final cursor to the end. -/
def expectedOutput (listing : List String) (hunks : List Hunk) : List String :=
  (expectedWeave listing 0 0 0 hunks).1 ++
    listing.drop (expectedWeave listing 0 0 0 hunks).2

theorem strCons_data (c : Char) (s : String) : (strCons c s).data = c :: s.data := rfl

theorem pyStartswith_strCons_same (c : Char) (s : String) {p : String}
    (hp : p.data = [c]) : pyStartswith (strCons c s) p = true := by
  rw [pyStartswith, hp, strCons_data]
  simp [listPre]

theorem pyStartswith_strCons_other (c : Char) (s : String) {d : Char} {p : String}
    (hp : p.data = [d]) (hne : d ≠ c) : pyStartswith (strCons c s) p = false := by
  rw [pyStartswith, hp, strCons_data]
  exact listPre_one_false hne

theorem blockSpec_cons (s : Nat) (l : String) (rest : List String) (c k : Nat) :
    blockSpec s (l :: rest) c k =
      (if pyStartswith l "+" then tagLine c l :: blockSpec s rest (c + 1) 0
      else if pyStartswith l "-" then
        tagLine (s + k) l :: blockSpec s rest c (k + 1)
      else blockSpec s rest c k) := rfl

theorem blockSpec_minus_run (s : Nat) :
    ∀ (r : List String) (tail : List String) (c k : Nat),
      blockSpec s (r.map (strCons '-') ++ tail) c k =
        tagsFrom '-' (s + k) r ++ blockSpec s tail c (k + r.length) := by
  intro r
  induction r with
  | nil => intro tail c k; simp [tagsFrom]
  | cons x xs ih =>
    intro tail c k
    rw [List.map_cons, List.cons_append, blockSpec_cons,
      if_neg (by simp [pyStartswith_strCons_other '-' x (p := "+") rfl (by decide)]),
      if_pos (pyStartswith_strCons_same '-' x rfl), ih tail c (k + 1)]
    rw [tagsFrom]
    simp only [List.cons_append, List.length_cons]
    rw [show s + (k + 1) = s + k + 1 from by omega,
      show k + 1 + xs.length = k + (xs.length + 1) from by omega]

theorem blockSpec_plus_run (s : Nat) :
    ∀ (a : List String) (c k : Nat),
      blockSpec s (a.map (strCons '+')) c k = tagsFrom '+' c a := by
  intro a
  induction a with
  | nil => intro c k; rfl
  | cons x xs ih =>
    intro c k
    rw [List.map_cons, blockSpec_cons,
      if_pos (pyStartswith_strCons_same '+' x rfl), ih (c + 1) 0, tagsFrom]

theorem plusIn_minus_map (r : List String) : plusIn (r.map (strCons '-')) = 0 := by
  induction r with
  | nil => rfl
  | cons x xs ih =>
    rw [List.map_cons, plusIn, List.countP_cons]
    simp only [pyStartswith_strCons_other '-' x (p := "+") rfl (by decide)]
    simpa [plusIn] using ih

theorem plusIn_plus_map (a : List String) : plusIn (a.map (strCons '+')) = a.length := by
  induction a with
  | nil => rfl
  | cons x xs ih =>
    rw [List.map_cons, plusIn, List.countP_cons]
    simp only [pyStartswith_strCons_same '+' x rfl]
    simp only [plusIn] at ih
    simp [ih]

theorem plusIn_append (x y : List String) : plusIn (x ++ y) = plusIn x + plusIn y := by
  simp [plusIn, List.countP_append]

theorem hunksWF_cons {old : List String} {minPos lo nl : Nat} {h : Hunk}
    {rest : List Hunk} (hwf : hunksWF old minPos lo nl (h :: rest) = true) :
    minPos ≤ h.pos ∧ h.pos + h.removed.length ≤ old.length ∧
      h.removed = (old.drop h.pos).take h.removed.length ∧
      1 ≤ hunkNewStart (nl + (h.pos - lo)) h ∧
      hunksWF old (h.pos + h.removed.length + 1) (h.pos + h.removed.length)
        (nl + (h.pos - lo) + h.added.length) rest = true := by
  rw [hunksWF] at hwf
  simp only [Bool.and_eq_true, decide_eq_true_eq] at hwf
  exact ⟨hwf.1.1.1.1.1, hwf.1.1.1.1.2, hwf.1.1.1.2, hwf.1.2, hwf.2⟩

theorem expectedWeave_cons (listing : List String) (cursor lo nl : Nat)
    (h : Hunk) (rest : List Hunk) :
    expectedWeave listing cursor lo nl (h :: rest) =
      ((listing.drop cursor).take (hunkNewStart (nl + (h.pos - lo)) h - cursor) ++
        tagsFrom '-' (hunkNewStart (nl + (h.pos - lo)) h) h.removed ++
        tagsFrom '+' (hunkNewStart (nl + (h.pos - lo)) h) h.added ++
        (expectedWeave listing (hunkNewStart (nl + (h.pos - lo)) h + h.added.length)
          (h.pos + h.removed.length) (nl + (h.pos - lo) + h.added.length) rest).1,
      (expectedWeave listing (hunkNewStart (nl + (h.pos - lo)) h + h.added.length)
        (h.pos + h.removed.length) (nl + (h.pos - lo) + h.added.length) rest).2) := rfl

theorem hunkViews_cons (lo nl : Nat) (h : Hunk) (rest : List Hunk) :
    hunkViews lo nl (h :: rest) =
      ⟨hunkNewStart (nl + (h.pos - lo)) h,
        h.removed.map (strCons '-') ++ h.added.map (strCons '+')⟩ ::
      hunkViews (h.pos + h.removed.length) (nl + (h.pos - lo) + h.added.length) rest := rfl

theorem weaveBody_views (listing old : List String) :
    ∀ (hs : List Hunk) (minPos lo nl cursor : Nat),
      hunksWF old minPos lo nl hs = true →
      weaveBody listing (hunkViews lo nl hs) cursor =
        expectedWeave listing cursor lo nl hs := by
  intro hs
  induction hs with
  | nil => intro minPos lo nl cursor _; rfl
  | cons h rest ih =>
    intro minPos lo nl cursor hwf
    obtain ⟨_, _, _, hb1, hwfrest⟩ := hunksWF_cons hwf
    rw [hunkViews_cons, weaveBody_cons, expectedWeave_cons]
    have hb0 : hunkNewStart (nl + (h.pos - lo)) h ≠ 0 := by omega
    have hbase : annBase ⟨hunkNewStart (nl + (h.pos - lo)) h,
        h.removed.map (strCons '-') ++ h.added.map (strCons '+')⟩ =
        hunkNewStart (nl + (h.pos - lo)) h := by
      rw [annBase, if_neg hb0]
    simp only [hbase, if_neg hb0]
    rw [blockSpec_minus_run, blockSpec_plus_run]
    rw [plusIn_append, plusIn_minus_map, plusIn_plus_map]
    rw [ih _ _ _ _ hwfrest]
    simp

theorem no_space_digit_seg (c0 : Char) (hc : c0 ≠ ' ') (a m : Nat) :
    ' ' ∉ c0 :: (natCharsOf a ++ ',' :: natCharsOf m) := by
  intro hmem
  rcases List.mem_cons.mp hmem with he | hmem'
  · exact hc he.symm
  · rcases List.mem_append.mp hmem' with hA | hM
    · exact natCharsOf_no_space a hA
    · rcases List.mem_cons.mp hM with he | hM'
      · cases he
      · exact natCharsOf_no_space m hM'

theorem hunkHeaderStr_data (a m b n : Nat) :
    (hunkHeaderStr a m b n).data =
      ['@', '@'] ++ ' ' :: (('-' :: (natCharsOf a ++ ',' :: natCharsOf m)) ++
        ' ' :: (('+' :: (natCharsOf b ++ ',' :: natCharsOf n)) ++
          ' ' :: ['@', '@'])) := by
  show ['@', '@', ' ', '-'] ++ natCharsOf a ++ [','] ++ natCharsOf m ++
      [' ', '+'] ++ natCharsOf b ++ [','] ++ natCharsOf n ++ [' ', '@', '@'] = _
  simp [List.append_assoc]

theorem splitCharList_header (a m b n : Nat) :
    splitCharList ' ' (hunkHeaderStr a m b n).data =
      [['@', '@'], '-' :: (natCharsOf a ++ ',' :: natCharsOf m),
        '+' :: (natCharsOf b ++ ',' :: natCharsOf n), ['@', '@']] := by
  rw [hunkHeaderStr_data]
  rw [splitCharList_append ' ' ['@', '@'] _ (by decide)]
  rw [splitCharList_append ' ' ('-' :: (natCharsOf a ++ ',' :: natCharsOf m)) _
    (no_space_digit_seg '-' (by decide) a m)]
  rw [splitCharList_append ' ' ('+' :: (natCharsOf b ++ ',' :: natCharsOf n)) _
    (no_space_digit_seg '+' (by decide) b n)]
  rw [splitCharList_no_sep ' ' ['@', '@'] (by decide)]

theorem parseHunkStart_header (a m b n : Nat) :
    parseHunkStart (hunkHeaderStr a m b n) = Except.ok b := by
  have hsplit : pySplitChar ' ' (hunkHeaderStr a m b n) =
      [⟨['@', '@']⟩, ⟨'-' :: (natCharsOf a ++ ',' :: natCharsOf m)⟩,
        ⟨'+' :: (natCharsOf b ++ ',' :: natCharsOf n)⟩, ⟨['@', '@']⟩] := by
    rw [pySplitChar, splitCharList_header]
    rfl
  rw [parseHunkStart, hsplit]
  have hcomma : pyContains ⟨'+' :: (natCharsOf b ++ ',' :: natCharsOf n)⟩ ',' = true := by
    simp [pyContains]
  show (match pyInt (if pyContains ⟨'+' :: (natCharsOf b ++ ',' :: natCharsOf n)⟩ ',' = true
      then (pySplitChar ','
        (pyDrop ⟨'+' :: (natCharsOf b ++ ',' :: natCharsOf n)⟩ 1)).headD ""
      else pyDrop ⟨'+' :: (natCharsOf b ++ ',' :: natCharsOf n)⟩ 1) with
    | none => Except.error PyErr.valueError
    | some k => Except.ok k) = Except.ok b
  rw [if_pos hcomma]
  have hdrop : pyDrop ⟨'+' :: (natCharsOf b ++ ',' :: natCharsOf n)⟩ 1 =
      ⟨natCharsOf b ++ ',' :: natCharsOf n⟩ := rfl
  rw [hdrop]
  have hsplit2 : pySplitChar ',' ⟨natCharsOf b ++ ',' :: natCharsOf n⟩ =
      [⟨natCharsOf b⟩, ⟨natCharsOf n⟩] := by
    rw [pySplitChar]
    show (splitCharList ',' (natCharsOf b ++ ',' :: natCharsOf n)).map _ = _
    rw [splitCharList_append ',' (natCharsOf b) _ (natCharsOf_no_comma b)]
    rw [splitCharList_no_sep ',' (natCharsOf n) (natCharsOf_no_comma n)]
    rfl
  rw [hsplit2]
  show (match pyInt ⟨natCharsOf b⟩ with
    | none => Except.error PyErr.valueError
    | some k => Except.ok k) = Except.ok b
  rw [show (⟨natCharsOf b⟩ : String) = natStr b from rfl, pyInt_natStr]

theorem pyStartswith_strCons_headne (c : Char) (s : String) {p : String}
    {d : Char} {pt : List Char} (hp : p.data = d :: pt) (hne : d ≠ c) :
    pyStartswith (strCons c s) p = false := by
  rw [pyStartswith, hp, strCons_data]
  simp [listPre, hne]

theorem header_classification (a m b n : Nat) :
    isSkipLine (hunkHeaderStr a m b n) = false ∧
      isHunkLine (hunkHeaderStr a m b n) = true := by
  have hdata : (hunkHeaderStr a m b n).data =
      '@' :: '@' :: ' ' :: '-' :: (natCharsOf a ++ [','] ++ natCharsOf m ++
        [' ', '+'] ++ natCharsOf b ++ [','] ++ natCharsOf n ++ [' ', '@', '@']) := by
    show ['@', '@', ' ', '-'] ++ natCharsOf a ++ [','] ++ natCharsOf m ++
        [' ', '+'] ++ natCharsOf b ++ [','] ++ natCharsOf n ++ [' ', '@', '@'] = _
    simp [List.append_assoc]
  constructor
  · rw [isSkipLine]
    rw [show pyStartswith (hunkHeaderStr a m b n) "---" = false from by
      rw [pyStartswith, show ("---" : String).data = ['-', '-', '-'] from rfl, hdata]
      simp [listPre]]
    rw [show pyStartswith (hunkHeaderStr a m b n) "+++" = false from by
      rw [pyStartswith, show ("+++" : String).data = ['+', '+', '+'] from rfl, hdata]
      simp [listPre]]
    rw [show pyStartswith (hunkHeaderStr a m b n) "//" = false from by
      rw [pyStartswith, show ("//" : String).data = ['/', '/'] from rfl, hdata]
      simp [listPre]]
    rfl
  · rw [isHunkLine, pyStartswith, show ("@@" : String).data = ['@', '@'] from rfl, hdata]
    simp [listPre]

theorem minus_line_classification (x : String) (hc : pyStartswith x "--" = false) :
    isSkipLine (strCons '-' x) = false ∧ isHunkLine (strCons '-' x) = false ∧
      isContentLine (strCons '-' x) = true := by
  have h3 : pyStartswith (strCons '-' x) "---" = false := by
    rw [pyStartswith, show ("---" : String).data = ['-', '-', '-'] from rfl, strCons_data]
    rw [pyStartswith, show ("--" : String).data = ['-', '-'] from rfl] at hc
    simp only [listPre, decide_True, Bool.true_and]
    exact hc
  refine ⟨?_, ?_, ?_⟩
  · rw [isSkipLine, h3,
      pyStartswith_strCons_headne '-' x (p := "+++") (by rfl) (by decide),
      pyStartswith_strCons_headne '-' x (p := "//") (by rfl) (by decide)]
    rfl
  · exact pyStartswith_strCons_headne '-' x (p := "@@") (by rfl) (by decide)
  · rw [isContentLine, pyStartswith_strCons_same '-' x rfl]
    simp

theorem plus_line_classification (x : String) (hc : pyStartswith x "++" = false) :
    isSkipLine (strCons '+' x) = false ∧ isHunkLine (strCons '+' x) = false ∧
      isContentLine (strCons '+' x) = true := by
  have h3 : pyStartswith (strCons '+' x) "+++" = false := by
    rw [pyStartswith, show ("+++" : String).data = ['+', '+', '+'] from rfl, strCons_data]
    rw [pyStartswith, show ("++" : String).data = ['+', '+'] from rfl] at hc
    simp only [listPre, decide_True, Bool.true_and]
    exact hc
  refine ⟨?_, ?_, ?_⟩
  · rw [isSkipLine, h3,
      pyStartswith_strCons_headne '+' x (p := "---") (by rfl) (by decide),
      pyStartswith_strCons_headne '+' x (p := "//") (by rfl) (by decide)]
    rfl
  · exact pyStartswith_strCons_headne '+' x (p := "@@") (by rfl) (by decide)
  · rw [isContentLine, pyStartswith_strCons_same '+' x rfl]
    simp

theorem parseLoop_content :
    ∀ (cs ls : List String) (s : Nat) (msg : List String)
      (acc : List DiffAnnotation),
      (∀ l ∈ cs, isSkipLine l = false ∧ isHunkLine l = false ∧
        isContentLine l = true) →
      parseLoop (cs ++ ls) (some ⟨s, msg⟩) acc =
        parseLoop ls (some ⟨s, msg ++ cs⟩) acc := by
  intro cs
  induction cs with
  | nil => intro ls s msg acc _; simp
  | cons x xs ih =>
    intro ls s msg acc hcl
    obtain ⟨hsk, hhk, hct⟩ := hcl x (List.mem_cons_self x xs)
    have hrest : ∀ l ∈ xs, isSkipLine l = false ∧ isHunkLine l = false ∧
        isContentLine l = true :=
      fun l hm => hcl l (List.mem_cons_of_mem x hm)
    rw [List.cons_append, parseLoop_cons, if_neg (by simp [hsk]),
      if_neg (by simp [hhk]), if_pos hct]
    show parseLoop (xs ++ ls) (some ⟨s, msg ++ [x]⟩) acc = _
    rw [ih ls s (msg ++ [x]) acc hrest]
    simp

theorem renderBody_cons (lo nl : Nat) (h : Hunk) (rest : List Hunk) :
    renderBody lo nl (h :: rest) =
      hunkHeaderStr (hunkOldStart h) h.removed.length
          (hunkNewStart (nl + (h.pos - lo)) h) h.added.length ::
        ((h.removed.map (strCons '-') ++ h.added.map (strCons '+')) ++
          renderBody (h.pos + h.removed.length)
            (nl + (h.pos - lo) + h.added.length) rest) := by
  rw [renderBody, renderHunk]
  rfl

theorem rendersClean_cons {h : Hunk} {rest : List Hunk}
    (hcl : rendersClean (h :: rest) = true) :
    (∀ l ∈ h.removed, pyStartswith l "--" = false) ∧
      (∀ l ∈ h.added, pyStartswith l "++" = false) ∧
      rendersClean rest = true := by
  simp only [rendersClean, List.all_cons, Bool.and_eq_true, List.all_eq_true,
    Bool.not_eq_true'] at hcl
  refine ⟨hcl.1.1, hcl.1.2, ?_⟩
  simp only [rendersClean, List.all_eq_true, Bool.and_eq_true, Bool.not_eq_true']
  exact hcl.2

theorem rendered_content_classification {h : Hunk}
    (hr : ∀ l ∈ h.removed, pyStartswith l "--" = false)
    (ha : ∀ l ∈ h.added, pyStartswith l "++" = false) :
    ∀ l ∈ h.removed.map (strCons '-') ++ h.added.map (strCons '+'),
      isSkipLine l = false ∧ isHunkLine l = false ∧ isContentLine l = true := by
  intro l hl
  rcases List.mem_append.mp hl with hm | hm
  · obtain ⟨x, hx, rfl⟩ := List.mem_map.mp hm
    exact minus_line_classification x (hr x hx)
  · obtain ⟨x, hx, rfl⟩ := List.mem_map.mp hm
    exact plus_line_classification x (ha x hx)

theorem parseLoop_renderBody :
    ∀ (hs : List Hunk) (lo nl : Nat) (active : Option DiffAnnotation)
      (acc : List DiffAnnotation),
      rendersClean hs = true →
      parseLoop (renderBody lo nl hs) active acc =
        Except.ok (sortAnns ((acc ++ active.toList) ++ hunkViews lo nl hs)) := by
  intro hs
  induction hs with
  | nil =>
    intro lo nl active acc _
    show Except.ok (sortAnns (acc ++ active.toList)) = _
    rw [show hunkViews lo nl [] = [] from rfl, List.append_nil]
  | cons h rest ih =>
    intro lo nl active acc hcl
    obtain ⟨hr, ha, hclrest⟩ := rendersClean_cons hcl
    obtain ⟨hsk, hhk⟩ := header_classification (hunkOldStart h) h.removed.length
      (hunkNewStart (nl + (h.pos - lo)) h) h.added.length
    rw [renderBody_cons, parseLoop_cons, if_neg (by simp [hsk]), if_pos hhk,
      parseHunkStart_header]
    show parseLoop ((h.removed.map (strCons '-') ++ h.added.map (strCons '+')) ++
        renderBody (h.pos + h.removed.length)
          (nl + (h.pos - lo) + h.added.length) rest)
      (some ⟨hunkNewStart (nl + (h.pos - lo)) h, []⟩) (acc ++ active.toList) = _
    rw [parseLoop_content _ _ _ _ _ (rendered_content_classification hr ha)]
    rw [ih _ _ _ _ hclrest]
    rw [hunkViews_cons]
    simp [List.append_assoc]

theorem hunkNewStart_ge (np : Nat) (h : Hunk) : np ≤ hunkNewStart np h := by
  rw [hunkNewStart]
  split <;> omega

theorem hunkNewStart_le (np : Nat) (h : Hunk) : hunkNewStart np h ≤ np + 1 := by
  rw [hunkNewStart]
  split <;> omega

theorem hunkViews_start_lb (old : List String) :
    ∀ (hs : List Hunk) (minPos lo nl : Nat),
      hunksWF old minPos lo nl hs = true → lo ≤ minPos →
      ∀ v ∈ hunkViews lo nl hs, nl + (minPos - lo) ≤ v.start := by
  intro hs
  induction hs with
  | nil => intro minPos lo nl _ _ v hv; cases hv
  | cons h rest ih =>
    intro minPos lo nl hwf hlm v hv
    obtain ⟨hpos, _, _, _, hwfrest⟩ := hunksWF_cons hwf
    rw [hunkViews_cons] at hv
    rcases List.mem_cons.mp hv with rfl | hv'
    · have h1 := hunkNewStart_ge (nl + (h.pos - lo)) h
      simp only
      omega
    · have h2 := ih (h.pos + h.removed.length + 1) (h.pos + h.removed.length)
        (nl + (h.pos - lo) + h.added.length) hwfrest (by omega) v hv'
      omega

theorem hunkViews_sorted (old : List String) :
    ∀ (hs : List Hunk) (minPos lo nl : Nat),
      hunksWF old minPos lo nl hs = true → lo ≤ minPos →
      List.Pairwise (fun x y : DiffAnnotation => x.start ≤ y.start)
        (hunkViews lo nl hs) := by
  intro hs
  induction hs with
  | nil => intro _ _ _ _ _; exact List.Pairwise.nil
  | cons h rest ih =>
    intro minPos lo nl hwf hlm
    obtain ⟨hpos, _, _, _, hwfrest⟩ := hunksWF_cons hwf
    rw [hunkViews_cons]
    refine List.Pairwise.cons ?_ (ih _ _ _ hwfrest (by omega))
    intro v hv
    have hlb := hunkViews_start_lb old rest (h.pos + h.removed.length + 1)
      (h.pos + h.removed.length) (nl + (h.pos - lo) + h.added.length)
      hwfrest (by omega) v hv
    have hle := hunkNewStart_le (nl + (h.pos - lo)) h
    simp only
    omega

theorem hunkViews_lines_ne :
    ∀ (hs : List Hunk) (lo nl : Nat),
      ∀ a ∈ hunkViews lo nl hs, ∀ l ∈ a.message, l.data ≠ [] := by
  intro hs
  induction hs with
  | nil => intro lo nl a ha; cases ha
  | cons h rest ih =>
    intro lo nl a ha l hl
    rw [hunkViews_cons] at ha
    rcases List.mem_cons.mp ha with rfl | ha'
    · simp only at hl
      rcases List.mem_append.mp hl with hm | hm <;>
      · obtain ⟨x, _, rfl⟩ := List.mem_map.mp hm
        rw [strCons_data]
        exact List.cons_ne_nil _ _
    · exact ih _ _ a ha' l hl

/-- C4 (amended): for every well-formed zero-context diff against the old
file (hunks matching the old file's content, separated by at least one
unchanged line, with positive rendered new-file starts and content lines
that do not collide with the parser's ignored `---`/`+++` prefixes),
`_parse_diff` recovers exactly one annotation per hunk anchored at the
hunk's new-file start, and weaving them into the 1-based numbered listing
places every `+` line at the line number equal to its position in the new
file (`b, b+1, ...` from the hunk's new-file start `b`), places every `-`
line at `b + offset` — the new-file line number at the deletion point, not
the old-file number the original claim stated — and copies every listing
entry outside the consumed windows through exactly once, unchanged and in
order (the gap and tail copies of `expectedOutput`). -/
theorem c4_parse_weave_placement (path : String) (old : List String)
    (hunks : List Hunk) (hwf : hunksWF old 0 0 0 hunks = true)
    (hcl : rendersClean hunks = true) :
    parse_diff (renderDiff hunks) = Except.ok (hunkViews 0 0 hunks) ∧
    annotate_file_message (numberedListing path old) (hunkViews 0 0 hunks) =
      some (expectedOutput (numberedListing path old) hunks) := by
  constructor
  · rw [parse_diff, show (renderDiff hunks).drop 4 = renderBody 0 0 hunks from rfl,
      parseLoop_renderBody hunks 0 0 none [] hcl]
    simp only [List.nil_append, Option.toList_none, List.append_nil]
    rw [sortAnns_of_sorted (hunkViews_sorted old hunks 0 0 0 hwf (le_refl 0))]
  · rw [annotate_file_message,
      annotateGo_eq_weaveBody _ (by simp [numberedListing]) _
        (hunkViews_lines_ne hunks 0 0) 0,
      Option.map_some', tail_if_eq, weaveBody_views _ old hunks 0 0 0 0 hwf]
    rfl

/-- Counterexample to C4 as stated: the well-formed single-hunk diff that
deletes old line 2 (`"b"`) of `["a", "b", "c"]` renders as
`@@ -2,1 +1,0 @@` / `-b`; parse followed by weave tags the removed line
`1:` (the hunk's new-file start), and the tag `2:-b` demanded by "every `-`
line at the line number it had in the old file" appears nowhere in the
output. -/
theorem c4_counterexample :
    hunksWF ["a", "b", "c"] 0 0 0 [⟨1, ["b"], []⟩] = true ∧
    rendersClean [⟨1, ["b"], []⟩] = true ∧
    parse_diff (renderDiff [⟨1, ["b"], []⟩]) = Except.ok [⟨1, ["-b"]⟩] ∧
    annotate_file_message (numberedListing "path" ["a", "b", "c"]) [⟨1, ["-b"]⟩] =
      some ["path", "1:-b", "1:a", "2:b", "3:c"] ∧
    tagLine 2 "-b" ∉ ["path", "1:-b", "1:a", "2:b", "3:c"] := by
  exact ⟨by decide, by decide, by decide, by decide, by decide⟩

/-- Witness for the amended C4 on a concrete two-hunk diff (a pure deletion
followed by a shifted replacement that grows the file). -/
theorem c4_parse_weave_placement_witness :
    parse_diff (renderDiff [⟨1, ["b"], []⟩, ⟨3, ["d"], ["D", "E"]⟩]) =
      Except.ok (hunkViews 0 0 [⟨1, ["b"], []⟩, ⟨3, ["d"], ["D", "E"]⟩]) ∧
    annotate_file_message (numberedListing "p" ["a", "b", "c", "d", "e"])
        (hunkViews 0 0 [⟨1, ["b"], []⟩, ⟨3, ["d"], ["D", "E"]⟩]) =
      some (expectedOutput (numberedListing "p" ["a", "b", "c", "d", "e"])
        [⟨1, ["b"], []⟩, ⟨3, ["d"], ["D", "E"]⟩]) :=
  c4_parse_weave_placement "p" ["a", "b", "c", "d", "e"]
    [⟨1, ["b"], []⟩, ⟨3, ["d"], ["D", "E"]⟩] (by decide) (by decide)
